import Mathlib

/-!
Verification of the Monte Carlo Exploring Starts trainer
(`train_monte_carlo_exploring_starts` in `src/rl.rs`).

Modelling choices (shallow embedding):

* `HashMap` values are modelled as association lists (`List (k × v)`)
  with lookup of the first matching key and in-place-overwriting insert.
  The list order fixes one concrete iteration order for the map; the
  Rust `HashMap` iteration order is unspecified (hash-seed dependent),
  which we make explicit where a claim depends on it by a separate,
  order-parameterised variant of the trainer.
* `Rational64` running estimates are built only through
  `Rational64::from_integer(r)` (numerator `r`, denominator `1`) and
  `Rational64::new_raw(numer + r, denom + 1)`; denominators therefore
  stay positive, so the pair is modelled as `QEntry` with an integer
  `sum` (the numerator) and a natural `count` (the denominator), and
  the `Ord` comparison of two such rationals is comparison of the
  mathematical values, i.e. cross multiplication with the positive
  denominators (`qleb`).  Machine-integer overflow of `i64` is not
  modelled (the spec lists it as an out-of-scope latent risk).
* The unbounded episode `loop` is modelled with fuel: `genEpisode`
  returns `none` when the episode does not terminate within `fuel`
  calls of the step function.
* The random source is modelled by explicit state passing: the two
  callbacks take the generator state and return the new one.
-/

namespace MCES

/-- The running estimate stored in `Q` for one `(state, action)` pair:
the numerator (`sum` of folded returns) and denominator (`count` of
folded returns) of the unreduced `Rational64` built by
`new_raw(numer + returns, denom + 1)` / `from_integer(returns)`. -/
structure QEntry where
  sum : Int
  count : Nat
deriving DecidableEq, Repr

variable {St Ac ρ : Type}

/-- Association-list model of `HashMap::get`: first entry with the key. -/
def lookupKV [DecidableEq κ] : List (κ × β) → κ → Option β
  | [], _ => none
  | (k, v) :: rest, a => if a = k then some v else lookupKV rest a

/-- Association-list model of `HashMap::insert`: overwrite the entry in
place if the key is present, append a new one otherwise. -/
def insertKV [DecidableEq κ] : List (κ × β) → κ → β → List (κ × β)
  | [], a, b => [(a, b)]
  | (k, v) :: rest, a, b => if a = k then (a, b) :: rest else (k, v) :: insertKV rest a b

/-- One fold of a first-visit return into a `Q` cell, exactly the
`qq.entry(action).and_modify(|f| *f = new_raw(f.numer() + returns, f.denom() + 1))
.or_insert_with(|| from_integer(returns))` chain of `rl.rs`. -/
def applyReturn (o : Option QEntry) (r : Int) : QEntry :=
  match o with
  | some e => ⟨e.sum + r, e.count + 1⟩
  | none => ⟨r, 1⟩

/-- The `Rational64` order on the stored estimates: since every stored
denominator is positive, `x ≤ y` is cross multiplication. -/
def qleb (x y : QEntry) : Bool :=
  decide (x.sum * (y.count : Int) ≤ y.sum * (x.count : Int))

/-- Model of `qq.iter().max_by_key(|&(_, value)| value)`: on ties the
LAST maximal element in iteration order is returned, which is Rust's
`Iterator::max_by_key` behaviour (fold that replaces the current
maximum whenever the new element compares greater *or equal*). -/
def maxByValue : List (Ac × QEntry) → Option (Ac × QEntry)
  | [] => none
  | x :: xs => some (xs.foldl (fun acc y => if qleb acc.2 y.2 then y else acc) x)

/-- Running-return accumulation of `rl.rs` lines 42–47: traverse the
(already reversed) episode, add each reward to `returns`, and
unconditionally insert the running total for the step's pair. -/
def firstVisitsAux [DecidableEq St] [DecidableEq Ac] :
    List ((St × Ac) × Int) → Int → List ((St × Ac) × Int) → Int × List ((St × Ac) × Int)
  | [], ret, acc => (ret, acc)
  | (sa, rw) :: rest, ret, acc => firstVisitsAux rest (ret + rw) (insertKV acc sa (ret + rw))

/-- The `first_visits` map computed from a recorded episode:
`for &(state_action, reward) in episode.iter().rev() { returns += reward;
first_visits.insert(state_action, returns); }`. -/
def firstVisits [DecidableEq St] [DecidableEq Ac]
    (e : List ((St × Ac) × Int)) : List ((St × Ac) × Int) :=
  (firstVisitsAux e.reverse 0 []).2

/-- Sum of the rewards of an episode fragment (the undiscounted return
of the whole fragment). -/
def sumR : List ((St × Ac) × Int) → Int
  | [] => 0
  | (_, rw) :: rest => rw + sumR rest

/-- Episode generation, the `loop` of `rl.rs` lines 26–40: call the
step function, record `(state_action, reward)`, and on a successor
state continue with the policy's action for it (falling back to
`Action::default()`), with `fuel` bounding the number of steps
(the Rust loop is unbounded; `none` means it did not terminate
within `fuel` steps). -/
def genEpisode [DecidableEq St] [Inhabited Ac]
    (next : (St × Ac) → ρ → (Option St × Int) × ρ) (policy : List (St × Ac)) :
    Nat → (St × Ac) → ρ → Option (List ((St × Ac) × Int) × ρ)
  | 0, _, _ => none
  | fuel + 1, sa, r =>
    match next sa r with
    | ((none, reward), r1) => some ([(sa, reward)], r1)
    | ((some s, reward), r1) =>
      match genEpisode next policy fuel (s, (lookupKV policy s).getD default) r1 with
      | none => none
      | some (rest, r2) => some ((sa, reward) :: rest, r2)

/-- One iteration of the update loop of `rl.rs` lines 49–57: fold the
first-visit return for `(s, a)` into `Q`, then recompute the greedy
action for `s` as the argmax over the updated inner map.  The `none`
branch mirrors the (unreachable) failure of the `.unwrap()`. -/
def updateStep [DecidableEq St] [DecidableEq Ac]
    (st : List (St × List (Ac × QEntry)) × List (St × Ac)) (entry : (St × Ac) × Int) :
    List (St × List (Ac × QEntry)) × List (St × Ac) :=
  let qq := (lookupKV st.1 entry.1.1).getD []
  let qq1 := insertKV qq entry.1.2 (applyReturn (lookupKV qq entry.1.2) entry.2)
  let q1 := insertKV st.1 entry.1.1 qq1
  match maxByValue qq1 with
  | some (b, _) => (q1, insertKV st.2 entry.1.1 b)
  | none => (q1, st.2)

/-- The whole per-episode update: `for (&(state, action), &returns) in
first_visits.iter() { ... }` folded over the first-visit map. -/
def episodeUpdate [DecidableEq St] [DecidableEq Ac]
    (q : List (St × List (Ac × QEntry))) (policy : List (St × Ac))
    (fv : List ((St × Ac) × Int)) :
    List (St × List (Ac × QEntry)) × List (St × Ac) :=
  fv.foldl updateStep (q, policy)

/-- The trainer's mutable state: the greedy policy, the action-value
table `Q`, and the random source. -/
structure TrainState (St Ac ρ : Type) where
  policy : List (St × Ac)
  q : List (St × List (Ac × QEntry))
  rng : ρ
deriving DecidableEq, Repr

/-- One episode of training: draw a start pair, simulate the episode,
compute first-visit returns, and fold them into `Q`/`Policy`. -/
def trainStep [DecidableEq St] [DecidableEq Ac] [Inhabited Ac]
    (explore : ρ → (St × Ac) × ρ) (next : (St × Ac) → ρ → (Option St × Int) × ρ)
    (fuel : Nat) (ts : TrainState St Ac ρ) : Option (TrainState St Ac ρ) :=
  match genEpisode next ts.policy fuel (explore ts.rng).1 (explore ts.rng).2 with
  | none => none
  | some (ep, r2) =>
    let qp := episodeUpdate ts.q ts.policy (firstVisits ep)
    some ⟨qp.2, qp.1, r2⟩

/-- Run `episodes` iterations of `trainStep`, forward order. -/
def runEpisodes [DecidableEq St] [DecidableEq Ac] [Inhabited Ac]
    (explore : ρ → (St × Ac) × ρ) (next : (St × Ac) → ρ → (Option St × Int) × ρ)
    (fuel : Nat) : Nat → TrainState St Ac ρ → Option (TrainState St Ac ρ)
  | 0, ts => some ts
  | n + 1, ts =>
    match trainStep explore next fuel ts with
    | none => none
    | some ts1 => runEpisodes explore next fuel n ts1

/-- The embedded `train_monte_carlo_exploring_starts`: run `episodes`
episodes from empty `Policy` and `Q` and return the policy. -/
def train [DecidableEq St] [DecidableEq Ac] [Inhabited Ac]
    (episodes fuel : Nat) (explore : ρ → (St × Ac) × ρ)
    (next : (St × Ac) → ρ → (Option St × Int) × ρ) (r : ρ) : Option (List (St × Ac)) :=
  Option.map TrainState.policy (runEpisodes explore next fuel episodes ⟨[], [], r⟩)

/-! ### Association-list lemmas -/

theorem lookupKV_insert_self [DecidableEq κ] (m : List (κ × β)) (k : κ) (v : β) :
    lookupKV (insertKV m k v) k = some v := by
  induction m with
  | nil => simp [insertKV, lookupKV]
  | cons x rest ih =>
    by_cases h : k = x.1
    · simp [insertKV, lookupKV, h]
    · simp [insertKV, lookupKV, h, ih]

theorem lookupKV_insert_ne [DecidableEq κ] (m : List (κ × β)) (k a : κ) (v : β)
    (h : a ≠ k) : lookupKV (insertKV m k v) a = lookupKV m a := by
  induction m with
  | nil => simp [insertKV, lookupKV, h]
  | cons x rest ih =>
    by_cases hk : k = x.1
    · subst hk
      simp [insertKV, lookupKV, h]
    · by_cases ha : a = x.1
      · simp [insertKV, lookupKV, hk, ha]
      · simp [insertKV, lookupKV, hk, ha, ih]

theorem insertKV_ne_nil [DecidableEq κ] (m : List (κ × β)) (k : κ) (v : β) :
    insertKV m k v ≠ [] := by
  cases m with
  | nil => simp [insertKV]
  | cons x rest =>
    by_cases h : k = x.1 <;> simp [insertKV, h]

theorem mem_insertKV [DecidableEq κ] (m : List (κ × β)) (k : κ) (v : β) (x : κ × β)
    (hx : x ∈ insertKV m k v) : x ∈ m ∨ x = (k, v) := by
  induction m with
  | nil => simpa [insertKV] using hx
  | cons y rest ih =>
    by_cases h : k = y.1
    · simp only [insertKV, h, if_pos rfl] at hx
      rcases List.mem_cons.1 hx with h1 | h1
      · exact Or.inr (by simpa [h] using h1)
      · exact Or.inl (List.mem_cons_of_mem _ h1)
    · simp only [insertKV, if_neg (fun hh => h hh)] at hx
      rcases List.mem_cons.1 hx with h1 | h1
      · exact Or.inl (h1 ▸ List.mem_cons_self _ _)
      · rcases ih h1 with h2 | h2
        · exact Or.inl (List.mem_cons_of_mem _ h2)
        · exact Or.inr h2

theorem lookupKV_isSome_of_insert [DecidableEq κ] (m : List (κ × β)) (k a : κ) (v : β)
    (h : (lookupKV m a).isSome) : (lookupKV (insertKV m k v) a).isSome := by
  by_cases hak : a = k
  · subst hak
    simp [lookupKV_insert_self]
  · rwa [lookupKV_insert_ne m k a v hak]

/-! ### First-visit return lemmas -/

theorem sumR_append (l1 l2 : List ((St × Ac) × Int)) :
    sumR (l1 ++ l2) = sumR l1 + sumR l2 := by
  induction l1 with
  | nil => simp [sumR]
  | cons x rest ih => simp [sumR, ih]; ring

theorem sumR_reverse (l : List ((St × Ac) × Int)) : sumR l.reverse = sumR l := by
  induction l with
  | nil => rfl
  | cons x rest ih =>
    simp [List.reverse_cons, sumR_append, sumR, ih]
    ring

theorem firstVisitsAux_fst [DecidableEq St] [DecidableEq Ac]
    (l : List ((St × Ac) × Int)) (ret : Int) (acc : List ((St × Ac) × Int)) :
    (firstVisitsAux l ret acc).1 = ret + sumR l := by
  induction l generalizing ret acc with
  | nil => simp [firstVisitsAux, sumR]
  | cons x rest ih =>
    cases x with
    | mk sa rw =>
      simp [firstVisitsAux, sumR, ih]
      ring

theorem firstVisitsAux_append [DecidableEq St] [DecidableEq Ac]
    (l1 l2 : List ((St × Ac) × Int)) (ret : Int) (acc : List ((St × Ac) × Int)) :
    firstVisitsAux (l1 ++ l2) ret acc =
      firstVisitsAux l2 (firstVisitsAux l1 ret acc).1 (firstVisitsAux l1 ret acc).2 := by
  induction l1 generalizing ret acc with
  | nil => simp [firstVisitsAux]
  | cons x rest ih =>
    cases x with
    | mk sa rw => simp [firstVisitsAux, ih]

theorem firstVisits_cons [DecidableEq St] [DecidableEq Ac]
    (x : (St × Ac) × Int) (rest : List ((St × Ac) × Int)) :
    firstVisits (x :: rest) = insertKV (firstVisits rest) x.1 (x.2 + sumR rest) := by
  cases x with
  | mk sa rw =>
    simp only [firstVisits, List.reverse_cons, firstVisitsAux_append, firstVisitsAux,
      firstVisitsAux_fst, sumR_reverse]
    rw [Int.zero_add, Int.add_comm]

/-- The return attached to the first (earliest forward) occurrence of
the pair `k` in the episode: the sum of the rewards from that position
to the episode's end, `none` if `k` never occurs. -/
def findFirstRet [DecidableEq St] [DecidableEq Ac] :
    List ((St × Ac) × Int) → (St × Ac) → Option Int
  | [], _ => none
  | (sa, rw) :: rest, k => if k = sa then some (rw + sumR rest) else findFirstRet rest k

theorem firstVisits_lookup [DecidableEq St] [DecidableEq Ac]
    (e : List ((St × Ac) × Int)) (k : St × Ac) :
    lookupKV (firstVisits e) k = findFirstRet e k := by
  induction e with
  | nil => rfl
  | cons x rest ih =>
    cases x with
    | mk sa rw =>
      rw [firstVisits_cons]
      by_cases h : k = sa
      · subst h
        simp [lookupKV_insert_self, findFirstRet, sumR]
      · rw [lookupKV_insert_ne _ _ _ _ h, ih]
        simp [findFirstRet, h]

theorem findFirstRet_first [DecidableEq St] [DecidableEq Ac]
    (e : List ((St × Ac) × Int)) (k : St × Ac) (i : Nat) (hi : i < e.length)
    (hki : (e.get ⟨i, hi⟩).1 = k)
    (hfirst : ∀ m (hm : m < i) (hml : m < e.length), (e.get ⟨m, hml⟩).1 ≠ k) :
    findFirstRet e k = some (sumR (e.drop i)) := by
  induction e generalizing i with
  | nil => exact absurd hi (by simp)
  | cons x rest ih =>
    cases x with
    | mk sa rw =>
      cases i with
      | zero =>
        have hk : k = sa := by
          simpa using hki.symm
        simp [findFirstRet, hk, sumR]
      | succ i =>
        have hne : k ≠ sa := by
          have := hfirst 0 (Nat.succ_pos i) (by simp)
          simpa using fun hh => this hh.symm
        have hi2 : i < rest.length := Nat.lt_of_succ_lt_succ hi
        have hki2 : (rest.get ⟨i, hi2⟩).1 = k := hki
        have hfirst2 : ∀ m (hm : m < i) (hml : m < rest.length),
            (rest.get ⟨m, hml⟩).1 ≠ k := by
          intro m hm hml
          exact hfirst (m + 1) (Nat.succ_lt_succ hm) (Nat.succ_lt_succ hml)
        simp only [findFirstRet, if_neg hne]
        exact ih i hi2 hki2 hfirst2

/-- Claim C1. First-visit return computation: if the pair `k` occurs at
positions `i < j` of the recorded episode and `i` is its earliest
occurrence, the return stored for `k` by the reverse traversal with
unconditional overwrite is the sum of all rewards from position `i`
to the end of the episode — and, whenever the two suffix returns
differ, it is not the return computed from position `j`. -/
theorem c1_first_visit_return [DecidableEq St] [DecidableEq Ac]
    (e : List ((St × Ac) × Int)) (k : St × Ac) (i j : Nat)
    (hij : i < j) (hj : j < e.length) (hi : i < e.length)
    (hki : (e.get ⟨i, hi⟩).1 = k) (hkj : (e.get ⟨j, hj⟩).1 = k)
    (hfirst : ∀ m (hm : m < i) (hml : m < e.length), (e.get ⟨m, hml⟩).1 ≠ k) :
    lookupKV (firstVisits e) k = some (sumR (e.drop i)) ∧
      (sumR (e.drop i) ≠ sumR (e.drop j) →
        lookupKV (firstVisits e) k ≠ some (sumR (e.drop j))) := by
  have h1 : lookupKV (firstVisits e) k = some (sumR (e.drop i)) := by
    rw [firstVisits_lookup]
    exact findFirstRet_first e k i hi hki hfirst
  refine ⟨h1, fun hne h2 => hne ?_⟩
  have := h1.symm.trans h2
  exact Option.some_injective _ this

/-- Witness for C1: episode `[((0,0),1), ((1,1),2), ((0,0),3)]` repeats
the pair `(0,0)` at positions 0 and 2; the stored return is
`1 + 2 + 3 = 6`, the return from position 0, not `3`. -/
theorem c1_witness :
    lookupKV (firstVisits [(((0 : Nat), (0 : Nat)), (1 : Int)), ((1, 1), 2), ((0, 0), 3)])
      (0, 0) = some 6 := by
  have h := c1_first_visit_return
    [(((0 : Nat), (0 : Nat)), (1 : Int)), ((1, 1), 2), ((0, 0), 3)] (0, 0) 0 2
    (by decide) (by decide) (by decide) (by decide) (by decide)
    (fun m hm _ => absurd hm (Nat.not_lt_zero m))
  exact h.1.trans (by decide)

/-! ### Exact incremental mean (C2) -/

/-- Folding a sequence of first-visit returns into one `Q` cell, each
episode applying the `and_modify`/`or_insert_with` chain once
(`applyReturn`); `none` is the state before the first fold. -/
def foldReturns (rs : List Int) : Option QEntry :=
  rs.foldl (fun o r => some (applyReturn o r)) none

theorem foldReturns_from_some (rs : List Int) (e : QEntry) :
    rs.foldl (fun o r => some (applyReturn o r)) (some e) =
      some ⟨e.sum + rs.sum, e.count + rs.length⟩ := by
  induction rs generalizing e with
  | nil => simp
  | cons r rest ih =>
    have h1 : List.foldl (fun o r => some (applyReturn o r)) (some e) (r :: rest) =
        List.foldl (fun o r => some (applyReturn o r)) (some ⟨e.sum + r, e.count + 1⟩) rest := rfl
    rw [h1, ih]
    simp only [List.sum_cons, List.length_cons, Option.some.injEq, QEntry.mk.injEq]
    constructor
    · ring
    · omega

theorem sum_of_constant (c : Int) (rs : List Int) (h : ∀ r ∈ rs, r = c) :
    rs.sum = c * (rs.length : Int) := by
  induction rs with
  | nil => simp
  | cons r rest ih =>
    have hr : r = c := h r (List.mem_cons_self _ _)
    have hrest : rest.sum = c * (rest.length : Int) :=
      ih (fun x hx => h x (List.mem_cons_of_mem _ hx))
    simp only [List.sum_cons, List.length_cons, hr, hrest]
    push_cast
    ring

/-- Claim C2. Exact incremental mean: after the first-visit returns
`r1, …, rk` of a pair have been folded into `Q` by the
`and_modify(new_raw(numer + returns, denom + 1))` /
`or_insert_with(from_integer(returns))` chain, the stored estimate is
exactly the unreduced rational `(r1 + … + rk) / k` — numerator the
running sum, denominator the count — and if every folded return is a
fixed constant `c` the stored mean equals exactly `c`
(`sum = c * count`). -/
theorem c2_exact_incremental_mean (rs : List Int) (h : rs ≠ []) :
    ∃ e, foldReturns rs = some e ∧ e.sum = rs.sum ∧ e.count = rs.length ∧
      ∀ c : Int, (∀ r ∈ rs, r = c) → e.sum = c * (e.count : Int) := by
  cases rs with
  | nil => exact absurd rfl h
  | cons r rest =>
    refine ⟨⟨r + rest.sum, 1 + rest.length⟩, ?_, by simp, by simp [Nat.add_comm], ?_⟩
    · simp only [foldReturns, List.foldl_cons, applyReturn]
      exact foldReturns_from_some rest ⟨r, 1⟩
    · intro c hc
      have := sum_of_constant c (r :: rest) hc
      simpa [Nat.add_comm] using this

/-- Witness for C2: folding the constant returns `[5, 5]` yields the
exact pair `(10, 2)`, whose mean is exactly `5`. -/
theorem c2_witness :
    ∃ e, foldReturns [(5 : Int), 5] = some e ∧
      e.sum = List.sum [(5 : Int), 5] ∧ e.count = List.length [(5 : Int), 5] ∧
      ∀ c : Int, (∀ r ∈ [(5 : Int), 5], r = c) → e.sum = c * (e.count : Int) :=
  c2_exact_incremental_mean [(5 : Int), 5] (by decide)

/-! ### Order lemmas for the argmax -/

theorem qleb_refl (x : QEntry) : qleb x x = true := by
  simp [qleb]

theorem qleb_total (x y : QEntry) (h : qleb x y = false) : qleb y x = true := by
  simp only [qleb, decide_eq_false_iff_not, not_le] at h
  simp only [qleb, decide_eq_true_eq]
  exact le_of_lt h

theorem qleb_trans (x y z : QEntry) (hy : 1 ≤ y.count)
    (h1 : qleb x y = true) (h2 : qleb y z = true) : qleb x z = true := by
  simp only [qleb, decide_eq_true_eq] at h1 h2 ⊢
  have hyc : (0 : Int) < (y.count : Int) := by exact_mod_cast hy
  have hxc : (0 : Int) ≤ (x.count : Int) := Int.natCast_nonneg _
  have hzc : (0 : Int) ≤ (z.count : Int) := Int.natCast_nonneg _
  nlinarith [mul_le_mul_of_nonneg_right h1 hzc, mul_le_mul_of_nonneg_right h2 hxc]

theorem maxByValue_fold_mem (xs : List (Ac × QEntry)) (acc : Ac × QEntry) :
    xs.foldl (fun acc y => if qleb acc.2 y.2 then y else acc) acc = acc ∨
      xs.foldl (fun acc y => if qleb acc.2 y.2 then y else acc) acc ∈ xs := by
  induction xs generalizing acc with
  | nil => exact Or.inl rfl
  | cons y ys ih =>
    simp only [List.foldl_cons]
    rcases ih (if qleb acc.2 y.2 then y else acc) with h | h
    · rw [h]
      by_cases hq : qleb acc.2 y.2
      · simp only [hq, if_true]
        exact Or.inr (List.mem_cons_self _ _)
      · simp only [hq, if_false]
        exact Or.inl rfl
    · exact Or.inr (List.mem_cons_of_mem _ h)

theorem maxByValue_fold_ge (xs : List (Ac × QEntry)) (acc : Ac × QEntry)
    (hacc : 1 ≤ acc.2.count) (hxs : ∀ y ∈ xs, 1 ≤ y.2.count) :
    qleb acc.2 (xs.foldl (fun acc y => if qleb acc.2 y.2 then y else acc) acc).2 = true ∧
      ∀ y ∈ xs,
        qleb y.2 (xs.foldl (fun acc y => if qleb acc.2 y.2 then y else acc) acc).2 = true := by
  induction xs generalizing acc with
  | nil => exact ⟨qleb_refl _, by simp⟩
  | cons y ys ih =>
    have hy : 1 ≤ y.2.count := hxs y (List.mem_cons_self _ _)
    have hys : ∀ z ∈ ys, 1 ≤ z.2.count := fun z hz => hxs z (List.mem_cons_of_mem _ hz)
    by_cases hq : qleb acc.2 y.2
    · have ih2 := ih y hy hys
      simp only [List.foldl_cons, if_pos hq]
      refine ⟨?_, ?_⟩
      · exact qleb_trans _ _ _ hy hq ih2.1
      · intro z hz
        rcases List.mem_cons.1 hz with h1 | h1
        · exact h1 ▸ ih2.1
        · exact ih2.2 z h1
    · have ih2 := ih acc hacc hys
      simp only [List.foldl_cons, if_neg hq]
      refine ⟨ih2.1, ?_⟩
      intro z hz
      rcases List.mem_cons.1 hz with h1 | h1
      · have hya : qleb y.2 acc.2 = true := qleb_total _ _ (by simpa using hq)
        exact h1 ▸ qleb_trans _ _ _ hacc hya ih2.1
      · exact ih2.2 z h1

theorem maxByValue_mem (l : List (Ac × QEntry)) (x : Ac × QEntry)
    (h : maxByValue l = some x) : x ∈ l := by
  cases l with
  | nil => exact absurd h (by simp [maxByValue])
  | cons y ys =>
    simp only [maxByValue, Option.some_inj] at h
    rcases maxByValue_fold_mem ys y with h1 | h1
    · exact (h ▸ h1) ▸ List.mem_cons_self _ _
    · exact List.mem_cons_of_mem _ (h ▸ h1)

theorem maxByValue_spec (l : List (Ac × QEntry)) (hl : ∀ y ∈ l, 1 ≤ y.2.count)
    (x : Ac × QEntry) (h : maxByValue l = some x) :
    x ∈ l ∧ ∀ y ∈ l, qleb y.2 x.2 = true := by
  refine ⟨maxByValue_mem l x h, ?_⟩
  cases l with
  | nil => simp
  | cons y ys =>
    simp only [maxByValue, Option.some_inj] at h
    have hy : 1 ≤ y.2.count := hl y (List.mem_cons_self _ _)
    have hys : ∀ z ∈ ys, 1 ≤ z.2.count := fun z hz => hl z (List.mem_cons_of_mem _ hz)
    have hge := maxByValue_fold_ge ys y hy hys
    intro z hz
    rcases List.mem_cons.1 hz with h1 | h1
    · exact h ▸ (h1 ▸ hge.1)
    · exact h ▸ hge.2 z h1

theorem maxByValue_isSome_of_ne_nil (l : List (Ac × QEntry)) (h : l ≠ []) :
    (maxByValue l).isSome = true := by
  cases l with
  | nil => exact absurd rfl h
  | cons y ys => simp [maxByValue]

/-- Claim C10. Panic-freedom of the greedy extraction: the argmax taken
by `updateStep` is over the inner map *after* the episode's action has
just been inserted or modified (`insertKV qq a e`), which is never
empty, so `maxByValue` never returns `none` — the `.unwrap()` in
`rl.rs` line 55 cannot panic and the `none` branch of `updateStep` is
unreachable. -/
theorem c10_unwrap_never_panics [DecidableEq Ac]
    (qq : List (Ac × QEntry)) (a : Ac) (e : QEntry) :
    (maxByValue (insertKV qq a e)).isSome = true :=
  maxByValue_isSome_of_ne_nil _ (insertKV_ne_nil qq a e)

/-! ### Key-membership lemmas -/

theorem mem_keys_iff_lookup_isSome [DecidableEq κ] (m : List (κ × β)) (k : κ) :
    k ∈ m.map Prod.fst ↔ (lookupKV m k).isSome := by
  induction m with
  | nil => simp [lookupKV]
  | cons x rest ih =>
    by_cases h : k = x.1
    · simp [lookupKV, h]
    · simp [lookupKV, h, ih]

theorem findFirstRet_isSome_iff [DecidableEq St] [DecidableEq Ac]
    (e : List ((St × Ac) × Int)) (k : St × Ac) :
    (findFirstRet e k).isSome ↔ k ∈ e.map Prod.fst := by
  induction e with
  | nil => simp [findFirstRet]
  | cons x rest ih =>
    cases x with
    | mk sa rw =>
      by_cases h : k = sa
      · simp [findFirstRet, h]
      · simp [findFirstRet, h, ih, fun hh : sa = k => h hh.symm]

theorem mem_states_iff [DecidableEq St] [DecidableEq Ac]
    (l : List ((St × Ac) × Int)) (s : St) :
    s ∈ l.map (fun x => x.1.1) ↔ ∃ a, (s, a) ∈ l.map Prod.fst := by
  simp only [List.mem_map]
  constructor
  · rintro ⟨x, hx, rfl⟩
    exact ⟨x.1.2, x, hx, rfl⟩
  · rintro ⟨a, x, hx, hxa⟩
    exact ⟨x, hx, by rw [hxa]⟩

/-- The first-visit map has exactly the states of the episode. -/
theorem firstVisits_states [DecidableEq St] [DecidableEq Ac]
    (e : List ((St × Ac) × Int)) (s : St) :
    s ∈ (firstVisits e).map (fun x => x.1.1) ↔ s ∈ e.map (fun x => x.1.1) := by
  rw [mem_states_iff, mem_states_iff]
  constructor
  · rintro ⟨a, ha⟩
    refine ⟨a, ?_⟩
    rw [mem_keys_iff_lookup_isSome, firstVisits_lookup, findFirstRet_isSome_iff] at ha
    exact ha
  · rintro ⟨a, ha⟩
    refine ⟨a, ?_⟩
    rw [mem_keys_iff_lookup_isSome, firstVisits_lookup, findFirstRet_isSome_iff]
    exact ha

/-! ### Greedy policy extraction (C3) -/

/-- Every estimate stored in `Q` has been produced by at least one
fold, so its denominator (`count`) is positive.  This is the reachable
well-formedness of the `Q` table. -/
def posCounts [DecidableEq St] (q : List (St × List (Ac × QEntry))) : Prop :=
  ∀ s qq, lookupKV q s = some qq → ∀ y ∈ qq, 1 ≤ (y : Ac × QEntry).2.count

/-- The policy is greedy at `s`: it stores an action whose estimate is
maximal (under the rational order `qleb`) among all actions with a
defined estimate for `s` in `Q`. -/
def greedyAt [DecidableEq St] (q : List (St × List (Ac × QEntry)))
    (p : List (St × Ac)) (s : St) : Prop :=
  ∃ qq a e, lookupKV q s = some qq ∧ lookupKV p s = some a ∧
    (a, e) ∈ qq ∧ ∀ y ∈ qq, qleb y.2 e = true

theorem updateStep_q_eq [DecidableEq St] [DecidableEq Ac]
    (st : List (St × List (Ac × QEntry)) × List (St × Ac)) (entry : (St × Ac) × Int) :
    (updateStep st entry).1 = insertKV st.1 entry.1.1
      (insertKV ((lookupKV st.1 entry.1.1).getD []) entry.1.2
        (applyReturn (lookupKV ((lookupKV st.1 entry.1.1).getD []) entry.1.2) entry.2)) := by
  simp only [updateStep]
  split <;> rfl

theorem updateStep_q_lookup_ne [DecidableEq St] [DecidableEq Ac]
    (st : List (St × List (Ac × QEntry)) × List (St × Ac)) (entry : (St × Ac) × Int)
    (s2 : St) (h : s2 ≠ entry.1.1) :
    lookupKV (updateStep st entry).1 s2 = lookupKV st.1 s2 := by
  rw [updateStep_q_eq]
  exact lookupKV_insert_ne _ _ _ _ h

theorem updateStep_p_lookup_ne [DecidableEq St] [DecidableEq Ac]
    (st : List (St × List (Ac × QEntry)) × List (St × Ac)) (entry : (St × Ac) × Int)
    (s2 : St) (h : s2 ≠ entry.1.1) :
    lookupKV (updateStep st entry).2 s2 = lookupKV st.2 s2 := by
  simp only [updateStep]
  split
  · exact lookupKV_insert_ne _ _ _ _ h
  · rfl

theorem updateStep_p_isSome [DecidableEq St] [DecidableEq Ac]
    (st : List (St × List (Ac × QEntry)) × List (St × Ac)) (entry : (St × Ac) × Int)
    (s2 : St) (h : (lookupKV st.2 s2).isSome) :
    (lookupKV (updateStep st entry).2 s2).isSome := by
  simp only [updateStep]
  split
  · exact lookupKV_isSome_of_insert _ _ _ _ h
  · exact h

theorem updateStep_inner_pos [DecidableEq St] [DecidableEq Ac]
    (st : List (St × List (Ac × QEntry)) × List (St × Ac)) (entry : (St × Ac) × Int)
    (hq : posCounts st.1) :
    ∀ y ∈ insertKV ((lookupKV st.1 entry.1.1).getD []) entry.1.2
      (applyReturn (lookupKV ((lookupKV st.1 entry.1.1).getD []) entry.1.2) entry.2),
      1 ≤ (y : Ac × QEntry).2.count := by
  intro y hy
  have hqq : ∀ z ∈ (lookupKV st.1 entry.1.1).getD [], 1 ≤ (z : Ac × QEntry).2.count := by
    cases hl : lookupKV st.1 entry.1.1 with
    | none => simp
    | some qq =>
      intro z hz
      exact hq entry.1.1 qq hl z (by simpa using hz)
  rcases mem_insertKV _ _ _ _ hy with h1 | h1
  · exact hqq y h1
  · subst h1
    cases hl2 : lookupKV ((lookupKV st.1 entry.1.1).getD []) entry.1.2 with
    | none => simp [applyReturn]
    | some e0 => simp [applyReturn]

theorem updateStep_posCounts [DecidableEq St] [DecidableEq Ac]
    (st : List (St × List (Ac × QEntry)) × List (St × Ac)) (entry : (St × Ac) × Int)
    (hq : posCounts st.1) : posCounts (updateStep st entry).1 := by
  intro s2 qq2 hl y hy
  rw [updateStep_q_eq] at hl
  by_cases h : s2 = entry.1.1
  · subst h
    rw [lookupKV_insert_self] at hl
    cases hl
    exact updateStep_inner_pos st entry hq y hy
  · rw [lookupKV_insert_ne _ _ _ _ h] at hl
    exact hq s2 qq2 hl y hy

theorem updateStep_greedy [DecidableEq St] [DecidableEq Ac]
    (st : List (St × List (Ac × QEntry)) × List (St × Ac)) (entry : (St × Ac) × Int)
    (hq : posCounts st.1) :
    greedyAt (updateStep st entry).1 (updateStep st entry).2 entry.1.1 := by
  have hpos := updateStep_inner_pos st entry hq
  have hsome := maxByValue_isSome_of_ne_nil
    (insertKV ((lookupKV st.1 entry.1.1).getD []) entry.1.2
      (applyReturn (lookupKV ((lookupKV st.1 entry.1.1).getD []) entry.1.2) entry.2))
    (insertKV_ne_nil _ _ _)
  rcases Option.isSome_iff_exists.1 hsome with ⟨x, hx⟩
  have hspec := maxByValue_spec _ hpos x hx
  refine ⟨insertKV ((lookupKV st.1 entry.1.1).getD []) entry.1.2
    (applyReturn (lookupKV ((lookupKV st.1 entry.1.1).getD []) entry.1.2) entry.2),
    x.1, x.2, ?_, ?_, by simpa using hspec.1, hspec.2⟩
  · rw [updateStep_q_eq, lookupKV_insert_self]
  · simp only [updateStep]
    split
    · rename_i b f hb
      rw [hx] at hb
      cases hb
      exact lookupKV_insert_self _ _ _
    · rename_i hb
      rw [hx] at hb
      cases hb

theorem episodeUpdate_q_lookup_notin [DecidableEq St] [DecidableEq Ac]
    (fv : List ((St × Ac) × Int)) (q : List (St × List (Ac × QEntry)))
    (p : List (St × Ac)) (s : St) (h : s ∉ fv.map (fun x => x.1.1)) :
    lookupKV (episodeUpdate q p fv).1 s = lookupKV q s ∧
      lookupKV (episodeUpdate q p fv).2 s = lookupKV p s := by
  induction fv generalizing q p with
  | nil => exact ⟨rfl, rfl⟩
  | cons x rest ih =>
    have hx : s ≠ x.1.1 := fun hh => h (by simp [hh])
    have hrest : s ∉ rest.map (fun x => x.1.1) := fun hh => h (by simp [hh])
    have step : episodeUpdate q p (x :: rest) =
        episodeUpdate (updateStep (q, p) x).1 (updateStep (q, p) x).2 rest := by
      simp [episodeUpdate]
    rw [step]
    rcases ih (updateStep (q, p) x).1 (updateStep (q, p) x).2 hrest with ⟨h1, h2⟩
    exact ⟨h1.trans (updateStep_q_lookup_ne (q, p) x s hx),
      h2.trans (updateStep_p_lookup_ne (q, p) x s hx)⟩

theorem episodeUpdate_posCounts [DecidableEq St] [DecidableEq Ac]
    (fv : List ((St × Ac) × Int)) (q : List (St × List (Ac × QEntry)))
    (p : List (St × Ac)) (hq : posCounts q) : posCounts (episodeUpdate q p fv).1 := by
  induction fv generalizing q p with
  | nil => exact hq
  | cons x rest ih =>
    have step : episodeUpdate q p (x :: rest) =
        episodeUpdate (updateStep (q, p) x).1 (updateStep (q, p) x).2 rest := by
      simp [episodeUpdate]
    rw [step]
    exact ih _ _ (updateStep_posCounts (q, p) x hq)

theorem episodeUpdate_greedy [DecidableEq St] [DecidableEq Ac]
    (fv : List ((St × Ac) × Int)) (q : List (St × List (Ac × QEntry)))
    (p : List (St × Ac)) (hq : posCounts q) (s : St) (hs : s ∈ fv.map (fun x => x.1.1)) :
    greedyAt (episodeUpdate q p fv).1 (episodeUpdate q p fv).2 s := by
  induction fv generalizing q p with
  | nil => simp at hs
  | cons x rest ih =>
    have step : episodeUpdate q p (x :: rest) =
        episodeUpdate (updateStep (q, p) x).1 (updateStep (q, p) x).2 rest := by
      simp [episodeUpdate]
    rw [step]
    by_cases hmem : s ∈ rest.map (fun y => y.1.1)
    · exact ih _ _ (updateStep_posCounts (q, p) x hq) hmem
    · have hsx : s = x.1.1 := by
        rcases List.mem_map.1 hs with ⟨y, hy, hys⟩
        rcases List.mem_cons.1 hy with h1 | h1
        · rw [← hys, h1]
        · exact absurd (List.mem_map.2 ⟨y, h1, hys⟩) hmem
      subst hsx
      rcases episodeUpdate_q_lookup_notin rest (updateStep (q, p) x).1
        (updateStep (q, p) x).2 x.1.1 hmem with ⟨h1, h2⟩
      rcases updateStep_greedy (q, p) x hq with ⟨qq, a, e, hg1, hg2, hg3, hg4⟩
      exact ⟨qq, a, e, h1.trans hg1, h2.trans hg2, hg3, hg4⟩

/-- Claim C3. Greedy policy extraction: immediately after an episode's
`Q` update, for every state that appears in (and is therefore updated
by) that episode, the policy maps the state to an action whose current
estimate is maximal, under the exact rational order, among all actions
with a defined estimate for that state. -/
theorem c3_greedy_policy_after_episode [DecidableEq St] [DecidableEq Ac] [Inhabited Ac]
    (explore : ρ → (St × Ac) × ρ) (next : (St × Ac) → ρ → (Option St × Int) × ρ)
    (fuel : Nat) (ts ts1 : TrainState St Ac ρ) (ep : List ((St × Ac) × Int)) (r2 : ρ)
    (hep : genEpisode next ts.policy fuel (explore ts.rng).1 (explore ts.rng).2 = some (ep, r2))
    (hstep : trainStep explore next fuel ts = some ts1)
    (hpos : posCounts ts.q) (s : St) (hs : s ∈ ep.map (fun x => x.1.1)) :
    greedyAt ts1.q ts1.policy s := by
  simp only [trainStep, hep, Option.some_inj] at hstep
  subst hstep
  exact episodeUpdate_greedy (firstVisits ep) ts.q ts.policy hpos s
    ((firstVisits_states ep s).2 hs)

/-- Witness for C3 on the concrete toy MDP of C8 after one episode. -/
theorem c3_witness :
    greedyAt [(true, [(true, (⟨1, 1⟩ : QEntry))])] [(true, true)] true := by
  have h := c3_greedy_policy_after_episode
    (fun n => ((true, decide (n % 2 = 0)), n + 1))
    (fun sa n => ((none, if sa.2 then 1 else -1), n)) 1
    ⟨[], [], 0⟩ ⟨[(true, true)], [(true, [(true, ⟨1, 1⟩)])], 1⟩
    [((true, true), 1)] 1 (by decide) (by decide)
    (by intro s qq h y hy; simp [lookupKV] at h) true (by decide)
  exact h

/-! ### Run-level lemmas -/

theorem runEpisodes_succ [DecidableEq St] [DecidableEq Ac] [Inhabited Ac]
    (explore : ρ → (St × Ac) × ρ) (next : (St × Ac) → ρ → (Option St × Int) × ρ)
    (fuel n : Nat) (ts : TrainState St Ac ρ) :
    runEpisodes explore next fuel (n + 1) ts =
      (runEpisodes explore next fuel n ts).bind (trainStep explore next fuel) := by
  induction n generalizing ts with
  | zero =>
    simp only [runEpisodes, Option.bind]
    cases trainStep explore next fuel ts <;> rfl
  | succ n ih =>
    show (match trainStep explore next fuel ts with
      | none => none
      | some ts1 => runEpisodes explore next fuel (n + 1) ts1) = _
    have h2 : runEpisodes explore next fuel (n + 1) ts =
        (match trainStep explore next fuel ts with
          | none => none
          | some ts1 => runEpisodes explore next fuel n ts1) := rfl
    cases h : trainStep explore next fuel ts with
    | none =>
      rw [h2, h]
      rfl
    | some ts1 =>
      rw [h2, h]
      exact ih ts1

theorem runEpisodes_preserves [DecidableEq St] [DecidableEq Ac] [Inhabited Ac]
    (explore : ρ → (St × Ac) × ρ) (next : (St × Ac) → ρ → (Option St × Int) × ρ)
    (fuel : Nat) (P : TrainState St Ac ρ → Prop)
    (hP : ∀ ts ts1, trainStep explore next fuel ts = some ts1 → P ts → P ts1)
    (n : Nat) (ts0 ts : TrainState St Ac ρ)
    (hrun : runEpisodes explore next fuel n ts0 = some ts) (h0 : P ts0) : P ts := by
  induction n generalizing ts0 with
  | zero =>
    cases hrun
    exact h0
  | succ n ih =>
    unfold runEpisodes at hrun
    cases h : trainStep explore next fuel ts0 with
    | none => rw [h] at hrun; cases hrun
    | some ts1 =>
      rw [h] at hrun
      exact ih ts1 hrun (hP ts0 ts1 h h0)

theorem lookupKV_insert_isSome_iff [DecidableEq κ] (m : List (κ × β)) (k a : κ) (v : β) :
    (lookupKV (insertKV m k v) a).isSome ↔ (a = k ∨ (lookupKV m a).isSome) := by
  by_cases h : a = k
  · subst h
    simp [lookupKV_insert_self]
  · rw [lookupKV_insert_ne _ _ _ _ h]
    simp [h]

theorem updateStep_p_eq [DecidableEq St] [DecidableEq Ac]
    (st : List (St × List (Ac × QEntry)) × List (St × Ac)) (entry : (St × Ac) × Int) :
    ∃ b, (updateStep st entry).2 = insertKV st.2 entry.1.1 b := by
  simp only [updateStep]
  split
  · rename_i b f hb
    exact ⟨b, rfl⟩
  · rename_i hb
    have hs := maxByValue_isSome_of_ne_nil
      (insertKV ((lookupKV st.1 entry.1.1).getD []) entry.1.2
        (applyReturn (lookupKV ((lookupKV st.1 entry.1.1).getD []) entry.1.2) entry.2))
      (insertKV_ne_nil _ _ _)
    rw [hb] at hs
    cases hs

theorem updateStep_policy_keys [DecidableEq St] [DecidableEq Ac]
    (st : List (St × List (Ac × QEntry)) × List (St × Ac)) (entry : (St × Ac) × Int)
    (s : St) :
    (lookupKV (updateStep st entry).2 s).isSome ↔
      (s = entry.1.1 ∨ (lookupKV st.2 s).isSome) := by
  rcases updateStep_p_eq st entry with ⟨b, hb⟩
  rw [hb, lookupKV_insert_isSome_iff]

theorem episodeUpdate_cons [DecidableEq St] [DecidableEq Ac]
    (q : List (St × List (Ac × QEntry))) (p : List (St × Ac))
    (x : (St × Ac) × Int) (rest : List ((St × Ac) × Int)) :
    episodeUpdate q p (x :: rest) =
      episodeUpdate (updateStep (q, p) x).1 (updateStep (q, p) x).2 rest := by
  simp [episodeUpdate]

theorem episodeUpdate_policy_keys [DecidableEq St] [DecidableEq Ac]
    (fv : List ((St × Ac) × Int)) (q : List (St × List (Ac × QEntry)))
    (p : List (St × Ac)) (s : St) :
    (lookupKV (episodeUpdate q p fv).2 s).isSome ↔
      ((lookupKV p s).isSome ∨ s ∈ fv.map (fun x => x.1.1)) := by
  induction fv generalizing q p with
  | nil => simp [episodeUpdate]
  | cons x rest ih =>
    rw [episodeUpdate_cons, ih]
    rw [updateStep_policy_keys (q, p) x s]
    simp only [List.map_cons, List.mem_cons]
    tauto

theorem trainStep_genEpisode [DecidableEq St] [DecidableEq Ac] [Inhabited Ac]
    (explore : ρ → (St × Ac) × ρ) (next : (St × Ac) → ρ → (Option St × Int) × ρ)
    (fuel : Nat) (ts ts1 : TrainState St Ac ρ)
    (h : trainStep explore next fuel ts = some ts1) :
    ∃ ep r2, genEpisode next ts.policy fuel (explore ts.rng).1 (explore ts.rng).2 =
        some (ep, r2) ∧
      ts1 = ⟨(episodeUpdate ts.q ts.policy (firstVisits ep)).2,
        (episodeUpdate ts.q ts.policy (firstVisits ep)).1, r2⟩ := by
  unfold trainStep at h
  cases hg : genEpisode next ts.policy fuel (explore ts.rng).1 (explore ts.rng).2 with
  | none =>
    rw [hg] at h
    cases h
  | some pr =>
    rw [hg] at h
    cases pr with
    | mk ep r2 =>
      have h2 : some (⟨(episodeUpdate ts.q ts.policy (firstVisits ep)).2,
          (episodeUpdate ts.q ts.policy (firstVisits ep)).1, r2⟩ : TrainState St Ac ρ) =
          some ts1 := h
      exact ⟨ep, r2, rfl, (Option.some_inj.mp h2).symm⟩

theorem trainStep_policy_keys [DecidableEq St] [DecidableEq Ac] [Inhabited Ac]
    (explore : ρ → (St × Ac) × ρ) (next : (St × Ac) → ρ → (Option St × Int) × ρ)
    (fuel : Nat) (ts ts1 : TrainState St Ac ρ) (ep : List ((St × Ac) × Int)) (r2 : ρ)
    (hep : genEpisode next ts.policy fuel (explore ts.rng).1 (explore ts.rng).2 =
      some (ep, r2))
    (hstep : trainStep explore next fuel ts = some ts1) (s : St) :
    (lookupKV ts1.policy s).isSome ↔
      ((lookupKV ts.policy s).isSome ∨ s ∈ ep.map (fun x => x.1.1)) := by
  rcases trainStep_genEpisode explore next fuel ts ts1 hstep with ⟨ep2, r3, hep2, hts⟩
  rw [hep] at hep2
  cases hep2
  subst hts
  show (lookupKV (episodeUpdate ts.q ts.policy (firstVisits ep)).2 s).isSome ↔ _
  rw [episodeUpdate_policy_keys]
  rw [firstVisits_states]

theorem policy_domain_aux [DecidableEq St] [DecidableEq Ac] [Inhabited Ac]
    (explore : ρ → (St × Ac) × ρ) (next : (St × Ac) → ρ → (Option St × Int) × ρ)
    (fuel : Nat) (r0 : ρ) (n : Nat) (ts : TrainState St Ac ρ)
    (hrun : runEpisodes explore next fuel n ⟨[], [], r0⟩ = some ts) (s : St) :
    (lookupKV ts.policy s).isSome ↔
      ∃ j, j < n ∧ ∃ tsj ep rj,
        runEpisodes explore next fuel j ⟨[], [], r0⟩ = some tsj ∧
        genEpisode next tsj.policy fuel (explore tsj.rng).1 (explore tsj.rng).2 =
          some (ep, rj) ∧
        s ∈ ep.map (fun x => x.1.1) := by
  induction n generalizing ts with
  | zero =>
    cases hrun
    constructor
    · intro h
      exact absurd h (by simp [lookupKV])
    · rintro ⟨j, hj, _⟩
      exact absurd hj (Nat.not_lt_zero j)
  | succ n ih =>
    rw [runEpisodes_succ] at hrun
    cases hn : runEpisodes explore next fuel n ⟨[], [], r0⟩ with
    | none =>
      rw [hn] at hrun
      cases hrun
    | some tsn =>
      rw [hn] at hrun
      have hstep : trainStep explore next fuel tsn = some ts := hrun
      rcases trainStep_genEpisode explore next fuel tsn ts hstep with ⟨ep, r2, hep, hts⟩
      rw [trainStep_policy_keys explore next fuel tsn ts ep r2 hep hstep s, ih tsn hn]
      constructor
      · rintro (⟨j, hj, hP⟩ | hs)
        · exact ⟨j, Nat.lt_succ_of_lt hj, hP⟩
        · exact ⟨n, Nat.lt_succ_self n, tsn, ep, r2, hn, hep, hs⟩
      · rintro ⟨j, hj, tsj, ep2, rj, hj1, hj2, hj3⟩
        by_cases hjn : j = n
        · subst hjn
          rw [hn, Option.some_inj] at hj1
          subst hj1
          rw [hep, Option.some_inj] at hj2
          cases hj2
          exact Or.inr hj3
        · exact Or.inl ⟨j, by omega, tsj, ep2, rj, hj1, hj2, hj3⟩

/-- Claim C5. Policy-domain invariant: after any number of completed
episodes, a state is a key of the policy mapping if and only if it
appeared in a step of some completed episode of the run; and the set
of policy keys never shrinks from one episode to the next. -/
theorem c5_policy_domain [DecidableEq St] [DecidableEq Ac] [Inhabited Ac]
    (explore : ρ → (St × Ac) × ρ) (next : (St × Ac) → ρ → (Option St × Int) × ρ)
    (fuel : Nat) (r0 : ρ) (n : Nat) (ts : TrainState St Ac ρ)
    (hrun : runEpisodes explore next fuel n ⟨[], [], r0⟩ = some ts) (s : St) :
    ((lookupKV ts.policy s).isSome ↔
      ∃ j, j < n ∧ ∃ tsj ep rj,
        runEpisodes explore next fuel j ⟨[], [], r0⟩ = some tsj ∧
        genEpisode next tsj.policy fuel (explore tsj.rng).1 (explore tsj.rng).2 =
          some (ep, rj) ∧
        s ∈ ep.map (fun x => x.1.1)) ∧
    ∀ ts1, runEpisodes explore next fuel (n + 1) ⟨[], [], r0⟩ = some ts1 →
      (lookupKV ts.policy s).isSome → (lookupKV ts1.policy s).isSome := by
  refine ⟨policy_domain_aux explore next fuel r0 n ts hrun s, ?_⟩
  intro ts1 hrun1 hsome
  rw [runEpisodes_succ, hrun] at hrun1
  have hstep : trainStep explore next fuel ts = some ts1 := hrun1
  rcases trainStep_genEpisode explore next fuel ts ts1 hstep with ⟨ep, r2, hep, hts⟩
  rw [trainStep_policy_keys explore next fuel ts ts1 ep r2 hep hstep s]
  exact Or.inl hsome

/-- Witness for C5: after one episode of a one-step MDP the state
`true` is a policy key, so some episode of the run visited it. -/
theorem c5_witness :
    ∃ j, j < 1 ∧ ∃ (tsj : TrainState Bool Bool Nat) (ep : List ((Bool × Bool) × Int))
      (rj : Nat),
      runEpisodes (fun n : Nat => (((true : Bool), (true : Bool)), n))
        (fun _ n => ((none, 0), n)) 1 j ⟨[], [], 0⟩ = some tsj ∧
      genEpisode (fun _ n => ((none, 0), n)) tsj.policy 1
        ((fun n : Nat => (((true : Bool), (true : Bool)), n)) tsj.rng).1
        ((fun n : Nat => (((true : Bool), (true : Bool)), n)) tsj.rng).2 = some (ep, rj) ∧
      true ∈ ep.map (fun x => x.1.1) :=
  ((c5_policy_domain (fun n : Nat => (((true : Bool), (true : Bool)), n))
    (fun _ n => ((none, 0), n)) 1 0 1
    ⟨[(true, true)], [(true, [(true, ⟨0, 1⟩)])], 0⟩ (by decide) true).1).mp (by decide)

/-! ### Q-table invariants (C6) -/

theorem updateStep_q_isSome [DecidableEq St] [DecidableEq Ac]
    (st : List (St × List (Ac × QEntry)) × List (St × Ac)) (entry : (St × Ac) × Int)
    (s : St) (h : (lookupKV st.1 s).isSome) :
    (lookupKV (updateStep st entry).1 s).isSome := by
  rw [updateStep_q_eq]
  exact lookupKV_isSome_of_insert _ _ _ _ h

theorem updateStep_inner_isSome [DecidableEq St] [DecidableEq Ac]
    (st : List (St × List (Ac × QEntry)) × List (St × Ac)) (entry : (St × Ac) × Int)
    (s : St) (a : Ac) (h : (lookupKV ((lookupKV st.1 s).getD []) a).isSome) :
    (lookupKV ((lookupKV (updateStep st entry).1 s).getD []) a).isSome := by
  rw [updateStep_q_eq]
  by_cases hs : s = entry.1.1
  · subst hs
    rw [lookupKV_insert_self]
    exact lookupKV_isSome_of_insert _ _ _ _ h
  · rw [lookupKV_insert_ne _ _ _ _ hs]
    exact h

theorem updateStep_q_nonempty [DecidableEq St] [DecidableEq Ac]
    (st : List (St × List (Ac × QEntry)) × List (St × Ac)) (entry : (St × Ac) × Int)
    (hq : ∀ s qq, lookupKV st.1 s = some qq → qq ≠ []) :
    ∀ s qq, lookupKV (updateStep st entry).1 s = some qq → qq ≠ [] := by
  intro s qq h
  rw [updateStep_q_eq] at h
  by_cases hs : s = entry.1.1
  · subst hs
    rw [lookupKV_insert_self, Option.some_inj] at h
    subst h
    exact insertKV_ne_nil _ _ _
  · rw [lookupKV_insert_ne _ _ _ _ hs] at h
    exact hq s qq h

theorem episodeUpdate_q_isSome [DecidableEq St] [DecidableEq Ac]
    (fv : List ((St × Ac) × Int)) (q : List (St × List (Ac × QEntry)))
    (p : List (St × Ac)) (s : St) (h : (lookupKV q s).isSome) :
    (lookupKV (episodeUpdate q p fv).1 s).isSome := by
  induction fv generalizing q p with
  | nil => exact h
  | cons x rest ih =>
    rw [episodeUpdate_cons]
    exact ih _ _ (updateStep_q_isSome (q, p) x s h)

theorem episodeUpdate_inner_isSome [DecidableEq St] [DecidableEq Ac]
    (fv : List ((St × Ac) × Int)) (q : List (St × List (Ac × QEntry)))
    (p : List (St × Ac)) (s : St) (a : Ac)
    (h : (lookupKV ((lookupKV q s).getD []) a).isSome) :
    (lookupKV ((lookupKV (episodeUpdate q p fv).1 s).getD []) a).isSome := by
  induction fv generalizing q p with
  | nil => exact h
  | cons x rest ih =>
    rw [episodeUpdate_cons]
    exact ih _ _ (updateStep_inner_isSome (q, p) x s a h)

theorem episodeUpdate_q_nonempty [DecidableEq St] [DecidableEq Ac]
    (fv : List ((St × Ac) × Int)) (q : List (St × List (Ac × QEntry)))
    (p : List (St × Ac)) (hq : ∀ s qq, lookupKV q s = some qq → qq ≠ []) :
    ∀ s qq, lookupKV (episodeUpdate q p fv).1 s = some qq → qq ≠ [] := by
  induction fv generalizing q p with
  | nil => exact hq
  | cons x rest ih =>
    rw [episodeUpdate_cons]
    exact ih _ _ (updateStep_q_nonempty (q, p) x hq)

/-- Claim C6. Q-table invariant: after any number of completed episodes,
every state present in `Q` has at least one action with a defined
`(sum, count)` estimate; and `Q` only grows across training — the next
episode's first-visit update (the only mutation of `Q` in the
embedding, as in the source) removes no state entry and no per-state
action entry. -/
theorem c6_q_table_invariant [DecidableEq St] [DecidableEq Ac] [Inhabited Ac]
    (explore : ρ → (St × Ac) × ρ) (next : (St × Ac) → ρ → (Option St × Int) × ρ)
    (fuel : Nat) (r0 : ρ) (n : Nat) (ts : TrainState St Ac ρ)
    (hrun : runEpisodes explore next fuel n ⟨[], [], r0⟩ = some ts) :
    (∀ s qq, lookupKV ts.q s = some qq → ∃ a e, (a, e) ∈ qq) ∧
    ∀ ts1, trainStep explore next fuel ts = some ts1 →
      (∀ s, (lookupKV ts.q s).isSome → (lookupKV ts1.q s).isSome) ∧
      (∀ s a, (lookupKV ((lookupKV ts.q s).getD []) a).isSome →
        (lookupKV ((lookupKV ts1.q s).getD []) a).isSome) := by
  constructor
  · have hne : ∀ s qq, lookupKV ts.q s = some qq → qq ≠ [] := by
      have := runEpisodes_preserves explore next fuel
        (fun t => ∀ s qq, lookupKV t.q s = some qq → qq ≠ [])
        (fun t t1 hstep hP => by
          rcases trainStep_genEpisode explore next fuel t t1 hstep with ⟨ep, r2, _, hts⟩
          subst hts
          exact episodeUpdate_q_nonempty (firstVisits ep) t.q t.policy hP)
        n ⟨[], [], r0⟩ ts hrun
        (by intro s qq h; simp [lookupKV] at h)
      exact this
    intro s qq h
    cases hq : qq with
    | nil => exact absurd hq (hne s qq h)
    | cons y rest => exact ⟨y.1, y.2, by simp [hq]⟩
  · intro ts1 hstep
    rcases trainStep_genEpisode explore next fuel ts ts1 hstep with ⟨ep, r2, _, hts⟩
    subst hts
    constructor
    · intro s h
      exact episodeUpdate_q_isSome (firstVisits ep) ts.q ts.policy s h
    · intro s a h
      exact episodeUpdate_inner_isSome (firstVisits ep) ts.q ts.policy s a h

/-- Witness for C6 at the start of a concrete run (zero episodes). -/
theorem c6_witness :
    (∀ s qq, lookupKV (TrainState.q (⟨[], [], 0⟩ : TrainState Bool Bool Nat)) s = some qq →
      ∃ a e, (a, e) ∈ qq) ∧
    ∀ ts1, trainStep (fun n : Nat => (((true : Bool), (true : Bool)), n))
        (fun _ n => ((none, 0), n)) 1 ⟨[], [], 0⟩ = some ts1 →
      (∀ s, (lookupKV (TrainState.q (⟨[], [], 0⟩ : TrainState Bool Bool Nat)) s).isSome →
        (lookupKV ts1.q s).isSome) ∧
      (∀ s a, (lookupKV ((lookupKV
          (TrainState.q (⟨[], [], 0⟩ : TrainState Bool Bool Nat)) s).getD []) a).isSome →
        (lookupKV ((lookupKV ts1.q s).getD []) a).isSome) :=
  c6_q_table_invariant (fun n : Nat => (((true : Bool), (true : Bool)), n))
    (fun _ n => ((none, 0), n)) 1 0 0 ⟨[], [], 0⟩ rfl

/-! ### Zero-episode behaviour (C9) -/

/-- Claim C9. Zero-episode behavior: with `episodes = 0` the trainer
returns an empty policy, leaves the random source untouched (the final
state carries the initial `r` unchanged), and never calls either
callback — expressed by the run being independent of the two callback
functions. -/
theorem c9_zero_episodes [DecidableEq St] [DecidableEq Ac] [Inhabited Ac]
    (explore explore2 : ρ → (St × Ac) × ρ)
    (next next2 : (St × Ac) → ρ → (Option St × Int) × ρ) (fuel : Nat) (r : ρ) :
    runEpisodes explore next fuel 0 ⟨[], [], r⟩ = some ⟨[], [], r⟩ ∧
    train 0 fuel explore next r = some [] ∧
    train 0 fuel explore next r = train 0 fuel explore2 next2 r :=
  ⟨rfl, rfl, rfl⟩

/-! ### Toy-MDP optimality (C8)

The two-state, two-action toy MDP: states are `Bool` with `S1 = true`
(the second state is never reached, as every step terminates), actions
are `Bool` with `A = true` and `B = false`.  Action `A` deterministically
yields reward `+1` and terminates; action `B` yields `-1` and
terminates.  The random source is a `Nat` counter; the exploring-start
sampler starts every episode at `S1` and alternates the start action by
the counter's parity, so both actions are explored. -/

def c8explore : Nat → (Bool × Bool) × Nat := fun n => ((true, decide (n % 2 = 0)), n + 1)

def c8next : (Bool × Bool) → Nat → (Option Bool × Int) × Nat :=
  fun sa n => ((none, if sa.2 then 1 else -1), n)

/-- Invariant after `k ≥ 1` episodes of the toy MDP: the policy maps
`S1` to `A`, the counter equals `k`, and `Q[S1]` holds a positive mean
for `A` (sum `x` over `x` visits) and, once `B` has been tried, a
negative mean for `B`. -/
def c8inv (ts : TrainState Bool Bool Nat) (k : Nat) : Prop :=
  ts.policy = [(true, true)] ∧ ts.rng = k ∧
  ∃ x : Nat, 1 ≤ x ∧
    (ts.q = [(true, [(true, ⟨(x : Int), x⟩)])] ∨
     ∃ y : Nat, 1 ≤ y ∧
       ts.q = [(true, [(true, ⟨(x : Int), x⟩), (false, ⟨-(y : Int), y⟩)])])

theorem c8_update_tt (x : Nat) :
    updateStep ([((true : Bool), [((true : Bool), (⟨(x : Int), x⟩ : QEntry))])],
      [((true : Bool), (true : Bool))]) ((true, true), 1) =
      ([(true, [(true, ⟨(x : Int) + 1, x + 1⟩)])], [(true, true)]) := by
  simp [updateStep, lookupKV, insertKV, applyReturn, maxByValue]

theorem c8_update_tf (x : Nat) (hx : 1 ≤ x) :
    updateStep ([((true : Bool), [((true : Bool), (⟨(x : Int), x⟩ : QEntry))])],
      [((true : Bool), (true : Bool))]) ((true, false), -1) =
      ([(true, [(true, ⟨(x : Int), x⟩), (false, ⟨-1, 1⟩)])], [(true, true)]) := by
  have hx0 : x ≠ 0 := by omega
  simp [updateStep, lookupKV, insertKV, applyReturn, maxByValue, qleb, hx0]

theorem c8_update_ft (x y : Nat) (hy : 1 ≤ y) :
    updateStep ([((true : Bool), [((true : Bool), (⟨(x : Int), x⟩ : QEntry)),
      (false, ⟨-(y : Int), y⟩)])], [((true : Bool), (true : Bool))]) ((true, true), 1) =
      ([(true, [(true, ⟨(x : Int) + 1, x + 1⟩), (false, ⟨-(y : Int), y⟩)])],
        [(true, true)]) := by
  have hy0 : y ≠ 0 := by omega
  have hyi : (1 : Int) ≤ (y : Int) := by exact_mod_cast hy
  have hxi : (0 : Int) ≤ (x : Int) := Int.natCast_nonneg x
  have h3 : ¬ (((x : Int) + 1) * (y : Int) ≤ -((y : Int) * ((x : Int) + 1))) := by nlinarith
  simp [updateStep, lookupKV, insertKV, applyReturn, maxByValue, qleb, hy0, h3]

theorem c8_update_ff (x y : Nat) (hx : 1 ≤ x) :
    updateStep ([((true : Bool), [((true : Bool), (⟨(x : Int), x⟩ : QEntry)),
      (false, ⟨-(y : Int), y⟩)])], [((true : Bool), (true : Bool))]) ((true, false), -1) =
      ([(true, [(true, ⟨(x : Int), x⟩), (false, ⟨-(y : Int) + -1, y + 1⟩)])],
        [(true, true)]) := by
  have hxi : (1 : Int) ≤ (x : Int) := by exact_mod_cast hx
  have hyi : (0 : Int) ≤ (y : Int) := Int.natCast_nonneg y
  have h4 : ¬ ((x : Int) * ((y : Int) + 1) ≤ (-(y : Int) + -1) * (x : Int)) := by nlinarith
  simp [updateStep, lookupKV, insertKV, applyReturn, maxByValue, qleb, h4]

theorem c8_trainStep_even (q : List (Bool × List (Bool × QEntry))) (k : Nat)
    (hk : k % 2 = 0) :
    trainStep c8explore c8next 1 (⟨[(true, true)], q, k⟩ : TrainState Bool Bool Nat) =
      some ⟨(updateStep (q, [(true, true)]) ((true, true), 1)).2,
        (updateStep (q, [(true, true)]) ((true, true), 1)).1, k + 1⟩ := by
  simp [trainStep, c8explore, c8next, genEpisode, firstVisits, firstVisitsAux, insertKV,
    episodeUpdate, hk]

theorem c8_trainStep_odd (q : List (Bool × List (Bool × QEntry))) (k : Nat)
    (hk : k % 2 = 1) :
    trainStep c8explore c8next 1 (⟨[(true, true)], q, k⟩ : TrainState Bool Bool Nat) =
      some ⟨(updateStep (q, [(true, true)]) ((true, false), -1)).2,
        (updateStep (q, [(true, true)]) ((true, false), -1)).1, k + 1⟩ := by
  simp [trainStep, c8explore, c8next, genEpisode, firstVisits, firstVisitsAux, insertKV,
    episodeUpdate, hk]

theorem c8_inv_step (ts : TrainState Bool Bool Nat) (k : Nat) (h : c8inv ts k) :
    ∃ ts1, trainStep c8explore c8next 1 ts = some ts1 ∧ c8inv ts1 (k + 1) := by
  obtain ⟨hp, hr, x, hx, hq⟩ := h
  cases ts with
  | mk p q r =>
    replace hp : p = [(true, true)] := hp
    replace hr : r = k := hr
    subst hp
    subst hr
    rcases Nat.mod_two_eq_zero_or_one r with hk | hk
    · rcases hq with hq | ⟨y, hy, hq⟩
      · replace hq : q = [(true, [(true, ⟨(x : Int), x⟩)])] := hq
        subst hq
        refine ⟨_, c8_trainStep_even _ r hk, ?_⟩
        rw [c8_update_tt]
        exact ⟨rfl, rfl, x + 1, by omega, Or.inl (by push_cast; ring_nf)⟩
      · replace hq : q = [(true, [(true, ⟨(x : Int), x⟩), (false, ⟨-(y : Int), y⟩)])] := hq
        subst hq
        refine ⟨_, c8_trainStep_even _ r hk, ?_⟩
        rw [c8_update_ft x y hy]
        exact ⟨rfl, rfl, x + 1, by omega, Or.inr ⟨y, hy, by push_cast; ring_nf⟩⟩
    · rcases hq with hq | ⟨y, hy, hq⟩
      · replace hq : q = [(true, [(true, ⟨(x : Int), x⟩)])] := hq
        subst hq
        refine ⟨_, c8_trainStep_odd _ r hk, ?_⟩
        rw [c8_update_tf x hx]
        exact ⟨rfl, rfl, x, hx, Or.inr ⟨1, by omega, by push_cast; ring_nf⟩⟩
      · replace hq : q = [(true, [(true, ⟨(x : Int), x⟩), (false, ⟨-(y : Int), y⟩)])] := hq
        subst hq
        refine ⟨_, c8_trainStep_odd _ r hk, ?_⟩
        rw [c8_update_ff x y hx]
        exact ⟨rfl, rfl, x, hx, Or.inr ⟨y + 1, by omega, by push_cast; ring_nf⟩⟩

theorem c8_run (k : Nat) (hk : 1 ≤ k) :
    ∃ ts, runEpisodes c8explore c8next 1 k ⟨[], [], 0⟩ = some ts ∧ c8inv ts k := by
  induction k with
  | zero => omega
  | succ k ih =>
    rcases Nat.eq_zero_or_pos k with h0 | hpos
    · subst h0
      refine ⟨⟨[(true, true)], [(true, [(true, ⟨1, 1⟩)])], 1⟩, by decide, rfl, rfl, 1,
        by omega, Or.inl ?_⟩
      norm_num
    · obtain ⟨ts, hrun, hinv⟩ := ih hpos
      obtain ⟨ts1, hstep, hinv1⟩ := c8_inv_step ts k hinv
      refine ⟨ts1, ?_, hinv1⟩
      rw [runEpisodes_succ, hrun]
      exact hstep

/-- Claim C8. Toy-MDP optimality: in the two-state, two-action MDP where
action `A` (= `true`) from `S1` (= `true`) deterministically yields
reward `+1` and terminates and action `B` yields `-1` and terminates,
after any number `k ≥ 1` of episodes the returned policy maps `S1` to
`A`. -/
theorem c8_toy_mdp_optimal (k : Nat) (hk : 1 ≤ k) :
    ∃ ts, runEpisodes c8explore c8next 1 k ⟨[], [], 0⟩ = some ts ∧
      lookupKV ts.policy true = some true := by
  obtain ⟨ts, hrun, hp, _⟩ := c8_run k hk
  refine ⟨ts, hrun, ?_⟩
  rw [hp]
  rfl

/-- Witness for C8 at `k = 3` episodes. -/
theorem c8_witness :
    ∃ ts, runEpisodes c8explore c8next 1 3 ⟨[], [], 0⟩ = some ts ∧
      lookupKV ts.policy true = some true :=
  c8_toy_mdp_optimal 3 (by decide)

/-! ### Reward bounds (C7) -/

theorem genEpisode_succ [DecidableEq St] [Inhabited Ac]
    (next : (St × Ac) → ρ → (Option St × Int) × ρ) (policy : List (St × Ac))
    (fuel : Nat) (sa : St × Ac) (r : ρ) :
    genEpisode next policy (fuel + 1) sa r =
      match next sa r with
      | ((none, reward), r1) => some ([(sa, reward)], r1)
      | ((some s, reward), r1) =>
        match genEpisode next policy fuel (s, (lookupKV policy s).getD default) r1 with
        | none => none
        | some (rest, r2) => some ((sa, reward) :: rest, r2) := rfl

theorem genEpisode_rewards [DecidableEq St] [DecidableEq Ac] [Inhabited Ac]
    (next : (St × Ac) → ρ → (Option St × Int) × ρ) (policy : List (St × Ac))
    (M : Int) (hR : ∀ sa rg, 0 ≤ (next sa rg).1.2 ∧ (next sa rg).1.2 ≤ M) :
    ∀ fuel (sa : St × Ac) r ep r2, genEpisode next policy fuel sa r = some (ep, r2) →
      ep.length ≤ fuel ∧ ∀ x ∈ ep, 0 ≤ (x : (St × Ac) × Int).2 ∧ x.2 ≤ M := by
  intro fuel
  induction fuel with
  | zero =>
    intro sa r ep r2 h
    simp [genEpisode] at h
  | succ fuel ih =>
    intro sa r ep r2 h
    rw [genEpisode_succ] at h
    have hrw := hR sa r
    rcases hnx : next sa r with ⟨⟨onx, rw⟩, r1⟩
    rw [hnx] at h hrw
    simp only at hrw
    cases onx with
    | none =>
      simp only [Option.some_inj] at h
      cases h
      refine ⟨by simp, ?_⟩
      intro x hx
      rcases List.mem_singleton.1 hx with rfl
      exact hrw
    | some s =>
      have h2 : (match genEpisode next policy fuel (s, (lookupKV policy s).getD default) r1 with
        | none => none
        | some (rest, r3) => some ((sa, rw) :: rest, r3)) = some (ep, r2) := h
      cases hrec : genEpisode next policy fuel (s, (lookupKV policy s).getD default) r1 with
      | none =>
        rw [hrec] at h2
        cases h2
      | some pr =>
        rcases pr with ⟨rest, r3⟩
        rw [hrec] at h2
        simp only [Option.some_inj] at h2
        cases h2
        rcases ih _ _ _ _ hrec with ⟨hlen, hmem⟩
        refine ⟨by simpa using Nat.succ_le_succ hlen, ?_⟩
        intro x hx
        rcases List.mem_cons.1 hx with rfl | hx2
        · exact hrw
        · exact hmem x hx2

theorem sumR_nonneg (l : List ((St × Ac) × Int)) (h : ∀ x ∈ l, 0 ≤ (x : (St × Ac) × Int).2) :
    0 ≤ sumR l := by
  induction l with
  | nil => simp [sumR]
  | cons x rest ih =>
    have h1 := h x (List.mem_cons_self _ _)
    have h2 := ih (fun y hy => h y (List.mem_cons_of_mem _ hy))
    simp only [sumR]
    omega

theorem sumR_le (l : List ((St × Ac) × Int)) (M : Int) (hM : 0 ≤ M)
    (h : ∀ x ∈ l, (x : (St × Ac) × Int).2 ≤ M) : sumR l ≤ M * (l.length : Int) := by
  induction l with
  | nil => simp [sumR]
  | cons x rest ih =>
    have h1 := h x (List.mem_cons_self _ _)
    have h2 := ih (fun y hy => h y (List.mem_cons_of_mem _ hy))
    simp only [sumR, List.length_cons]
    push_cast
    nlinarith

theorem firstVisitsAux_values [DecidableEq St] [DecidableEq Ac]
    (l : List ((St × Ac) × Int)) (C : Int) :
    ∀ (ret : Int) (acc : List ((St × Ac) × Int)), 0 ≤ ret →
      (∀ x ∈ l, 0 ≤ (x : (St × Ac) × Int).2) →
      (∀ x ∈ acc, 0 ≤ (x : (St × Ac) × Int).2 ∧ x.2 ≤ C) →
      ret + sumR l ≤ C →
      ∀ x ∈ (firstVisitsAux l ret acc).2, 0 ≤ (x : (St × Ac) × Int).2 ∧ x.2 ≤ C := by
  induction l with
  | nil =>
    intro ret acc _ _ hacc _
    exact hacc
  | cons y rest ih =>
    intro ret acc hret hl hacc hC
    cases y with
    | mk sa rw =>
      have hrw : 0 ≤ rw := hl (sa, rw) (List.mem_cons_self _ _)
      have hrest : ∀ x ∈ rest, 0 ≤ (x : (St × Ac) × Int).2 :=
        fun x hx => hl x (List.mem_cons_of_mem _ hx)
      have hsum : 0 ≤ sumR rest := sumR_nonneg rest hrest
      have hCr : ret + rw + sumR rest ≤ C := by
        simp only [sumR] at hC
        omega
      show ∀ x ∈ (firstVisitsAux rest (ret + rw) (insertKV acc sa (ret + rw))).2, _
      refine ih (ret + rw) (insertKV acc sa (ret + rw)) (by omega) hrest ?_ hCr
      intro x hx
      rcases mem_insertKV _ _ _ _ hx with h1 | h1
      · exact hacc x h1
      · subst h1
        exact ⟨by simpa using by omega, by simpa using by omega⟩

theorem firstVisits_values [DecidableEq St] [DecidableEq Ac]
    (e : List ((St × Ac) × Int)) (M : Int) (hM : 0 ≤ M)
    (h : ∀ x ∈ e, 0 ≤ (x : (St × Ac) × Int).2 ∧ x.2 ≤ M) :
    ∀ x ∈ firstVisits e, 0 ≤ (x : (St × Ac) × Int).2 ∧ x.2 ≤ M * (e.length : Int) := by
  have hrev : ∀ x ∈ e.reverse, 0 ≤ (x : (St × Ac) × Int).2 :=
    fun x hx => (h x (List.mem_reverse.1 hx)).1
  refine firstVisitsAux_values e.reverse (M * (e.length : Int)) 0 [] le_rfl hrev (by simp) ?_
  rw [Int.zero_add, sumR_reverse]
  have := sumR_le e M hM (fun x hx => (h x hx).2)
  exact this

theorem lookupKV_mem [DecidableEq κ] (m : List (κ × β)) (k : κ) (v : β)
    (h : lookupKV m k = some v) : (k, v) ∈ m := by
  induction m with
  | nil => simp [lookupKV] at h
  | cons x rest ih =>
    by_cases hk : k = x.1
    · rw [lookupKV, if_pos hk] at h
      cases h
      subst hk
      exact List.mem_cons_self _ _
    · rw [lookupKV, if_neg hk] at h
      exact List.mem_cons_of_mem _ (ih h)

/-- All estimates in `Q` have a non-negative sum bounded by `C` times
their count — i.e. every stored mean lies in `[0, C]`. -/
def qBounded [DecidableEq St] (C : Int) (q : List (St × List (Ac × QEntry))) : Prop :=
  ∀ s qq, lookupKV q s = some qq → ∀ y ∈ qq,
    0 ≤ (y : Ac × QEntry).2.sum ∧ (y : Ac × QEntry).2.sum ≤ C * ((y : Ac × QEntry).2.count : Int)

theorem updateStep_qBounded [DecidableEq St] [DecidableEq Ac] (C : Int)
    (st : List (St × List (Ac × QEntry)) × List (St × Ac)) (entry : (St × Ac) × Int)
    (hq : qBounded C st.1) (hret : 0 ≤ entry.2 ∧ entry.2 ≤ C) :
    qBounded C (updateStep st entry).1 := by
  intro s qq hl y hy
  rw [updateStep_q_eq] at hl
  have hinner : ∀ z ∈ (lookupKV st.1 entry.1.1).getD [],
      0 ≤ (z : Ac × QEntry).2.sum ∧
        (z : Ac × QEntry).2.sum ≤ C * ((z : Ac × QEntry).2.count : Int) := by
    cases hl0 : lookupKV st.1 entry.1.1 with
    | none => simp
    | some qq0 =>
      intro z hz
      exact hq entry.1.1 qq0 hl0 z (by simpa using hz)
  by_cases hs : s = entry.1.1
  · subst hs
    rw [lookupKV_insert_self, Option.some_inj] at hl
    subst hl
    rcases mem_insertKV _ _ _ _ hy with h1 | h1
    · exact hinner y h1
    · subst h1
      cases hl2 : lookupKV ((lookupKV st.1 entry.1.1).getD []) entry.1.2 with
      | none =>
        simp only [applyReturn, hl2]
        constructor
        · exact hret.1
        · simpa using hret.2
      | some e0 =>
        have he0 := hinner (entry.1.2, e0) (lookupKV_mem _ _ _ hl2)
        simp only at he0
        simp only [applyReturn, hl2]
        have hr1 := hret.1
        have hr2 := hret.2
        have hcast : (((e0.count + 1 : Nat)) : Int) = (e0.count : Int) + 1 := by
          push_cast
          ring
        constructor
        · omega
        · rw [hcast, show C * ((e0.count : Int) + 1) = C * (e0.count : Int) + C from by ring]
          omega
  · rw [lookupKV_insert_ne _ _ _ _ hs] at hl
    exact hq s qq hl y hy

theorem episodeUpdate_qBounded [DecidableEq St] [DecidableEq Ac] (C : Int)
    (fv : List ((St × Ac) × Int)) (q : List (St × List (Ac × QEntry)))
    (p : List (St × Ac)) (hq : qBounded C q)
    (hfv : ∀ x ∈ fv, 0 ≤ (x : (St × Ac) × Int).2 ∧ x.2 ≤ C) :
    qBounded C (episodeUpdate q p fv).1 := by
  induction fv generalizing q p with
  | nil => exact hq
  | cons x rest ih =>
    rw [episodeUpdate_cons]
    exact ih _ _ (updateStep_qBounded C (q, p) x hq (hfv x (List.mem_cons_self _ _)))
      (fun y hy => hfv y (List.mem_cons_of_mem _ hy))

theorem trainStep_qBounded [DecidableEq St] [DecidableEq Ac] [Inhabited Ac]
    (explore : ρ → (St × Ac) × ρ) (next : (St × Ac) → ρ → (Option St × Int) × ρ)
    (fuel : Nat) (M : Int) (hM : 0 ≤ M)
    (hR : ∀ sa rg, 0 ≤ (next sa rg).1.2 ∧ (next sa rg).1.2 ≤ M)
    (ts ts1 : TrainState St Ac ρ) (hstep : trainStep explore next fuel ts = some ts1)
    (hq : qBounded (M * (fuel : Int)) ts.q) : qBounded (M * (fuel : Int)) ts1.q := by
  rcases trainStep_genEpisode explore next fuel ts ts1 hstep with ⟨ep, r2, hep, hts⟩
  subst hts
  rcases genEpisode_rewards next ts.policy M hR fuel _ _ ep r2 hep with ⟨hlen, hmem⟩
  have hfv := firstVisits_values ep M hM hmem
  refine episodeUpdate_qBounded _ _ _ _ hq ?_
  intro x hx
  rcases hfv x hx with ⟨h1, h2⟩
  refine ⟨h1, le_trans h2 ?_⟩
  have hcast : ((ep.length : Int)) ≤ (fuel : Int) := by exact_mod_cast hlen
  exact mul_le_mul_of_nonneg_left hcast hM

/-- Claim C7, amended. Bounded estimates: if every reward the step
function can return lies in `[0, M]`, then after any run every stored
`Q` mean lies in `[0, M * fuel]` where `fuel` bounds the episode
length (`0 ≤ sum` and `sum ≤ M * fuel * count`).  The claim's tighter
interval `[min reward, max reward]` is refuted by
`c7_counterexample`: returns are *sums* of up to `fuel` step rewards,
so only the length-scaled bound holds. -/
theorem c7_bounded_estimates [DecidableEq St] [DecidableEq Ac] [Inhabited Ac]
    (explore : ρ → (St × Ac) × ρ) (next : (St × Ac) → ρ → (Option St × Int) × ρ)
    (fuel : Nat) (M : Int) (hM : 0 ≤ M)
    (hR : ∀ sa rg, 0 ≤ (next sa rg).1.2 ∧ (next sa rg).1.2 ≤ M)
    (n : Nat) (r0 : ρ) (ts : TrainState St Ac ρ)
    (hrun : runEpisodes explore next fuel n ⟨[], [], r0⟩ = some ts) :
    qBounded (M * (fuel : Int)) ts.q := by
  refine runEpisodes_preserves explore next fuel
    (fun t => qBounded (M * (fuel : Int)) t.q)
    (fun t t1 hstep hP => trainStep_qBounded explore next fuel M hM hR t t1 hstep hP)
    n ⟨[], [], r0⟩ ts hrun ?_
  intro s qq h
  simp [lookupKV] at h

/-- Counterexample to C7 as stated: in a two-step MDP whose step
function returns reward exactly `1` at every step (so min reward = max
reward = 1), after one episode the stored mean for the start pair is
`2/1 = 2`, outside `[1, 1]`: the first-visit return sums *all* rewards
to episode end, not a single step's reward. -/
theorem c7_counterexample :
    (∀ (sa : Bool × Unit) (n : Nat),
      ((fun (sa : Bool × Unit) (n : Nat) =>
        (if sa.1 then ((none : Option Bool), (1 : Int)) else (some true, 1), n)) sa n).1.2
        = 1) ∧
    ∃ ts, runEpisodes (fun n : Nat => (((false : Bool), ()), n + 1))
        (fun (sa : Bool × Unit) (n : Nat) =>
          (if sa.1 then ((none : Option Bool), (1 : Int)) else (some true, 1), n))
        2 1 ⟨[], [], 0⟩ = some ts ∧
      ∃ qq e, lookupKV ts.q false = some qq ∧ lookupKV qq () = some e ∧
        (1 : Int) * (e.count : Int) < e.sum := by
  constructor
  · intro sa n
    rcases sa with ⟨b, u⟩
    cases b <;> rfl
  · exact ⟨⟨[(true, ()), (false, ())], [(true, [((), ⟨1, 1⟩)]), (false, [((), ⟨2, 1⟩)])], 1⟩,
      by decide, [((), ⟨2, 1⟩)], ⟨2, 1⟩, by decide, by decide, by decide⟩

/-- Witness for the amended C7 on a one-step MDP with all rewards `1`
(`M = 1`, `fuel = 1`): every stored mean lies in `[0, 1]`. -/
theorem c7_witness :
    qBounded ((1 : Int) * ((1 : Nat) : Int))
      (TrainState.q (⟨[(true, true)], [(true, [(true, ⟨1, 1⟩)])], 1⟩ :
        TrainState Bool Bool Nat)) :=
  c7_bounded_estimates (fun n : Nat => (((true : Bool), (true : Bool)), n + 1))
    (fun _ n => ((none, 1), n)) 1 1 (by norm_num)
    (fun sa rg => ⟨by norm_num, by norm_num⟩) 1 0
    ⟨[(true, true)], [(true, [(true, ⟨1, 1⟩)])], 1⟩ (by decide)

/-! ### Determinism and iteration order (C4)

The Rust implementation takes the argmax with
`qq.iter().max_by_key(...)` over a `std::collections::HashMap`, whose
iteration order is unspecified: it depends on the hasher's random
seed, which differs between map instances and between process runs and
is *not* derived from the trainer's `rng` argument.  The variant
trainer below makes that hidden input explicit as a parameter `ord`
that reorders the inner map just before the argmax is taken (the base
embedding `train` is the instance `ord = id`, i.e. insertion order).
With exactly tied estimates the argmax — and hence the policy —
depends on `ord`. -/

/-- Variant of `updateStep` with the inner map iteration order at the argmax
made explicit. -/
def updateStepO [DecidableEq St] [DecidableEq Ac]
    (ord : List (Ac × QEntry) → List (Ac × QEntry))
    (st : List (St × List (Ac × QEntry)) × List (St × Ac)) (entry : (St × Ac) × Int) :
    List (St × List (Ac × QEntry)) × List (St × Ac) :=
  let qq := (lookupKV st.1 entry.1.1).getD []
  let qq1 := insertKV qq entry.1.2 (applyReturn (lookupKV qq entry.1.2) entry.2)
  let q1 := insertKV st.1 entry.1.1 qq1
  match maxByValue (ord qq1) with
  | some (b, _) => (q1, insertKV st.2 entry.1.1 b)
  | none => (q1, st.2)

def episodeUpdateO [DecidableEq St] [DecidableEq Ac]
    (ord : List (Ac × QEntry) → List (Ac × QEntry))
    (q : List (St × List (Ac × QEntry))) (policy : List (St × Ac))
    (fv : List ((St × Ac) × Int)) :
    List (St × List (Ac × QEntry)) × List (St × Ac) :=
  fv.foldl (updateStepO ord) (q, policy)

def trainStepO [DecidableEq St] [DecidableEq Ac] [Inhabited Ac]
    (ord : List (Ac × QEntry) → List (Ac × QEntry))
    (explore : ρ → (St × Ac) × ρ) (next : (St × Ac) → ρ → (Option St × Int) × ρ)
    (fuel : Nat) (ts : TrainState St Ac ρ) : Option (TrainState St Ac ρ) :=
  match genEpisode next ts.policy fuel (explore ts.rng).1 (explore ts.rng).2 with
  | none => none
  | some (ep, r2) =>
    let qp := episodeUpdateO ord ts.q ts.policy (firstVisits ep)
    some ⟨qp.2, qp.1, r2⟩

def runEpisodesO [DecidableEq St] [DecidableEq Ac] [Inhabited Ac]
    (ord : List (Ac × QEntry) → List (Ac × QEntry))
    (explore : ρ → (St × Ac) × ρ) (next : (St × Ac) → ρ → (Option St × Int) × ρ)
    (fuel : Nat) : Nat → TrainState St Ac ρ → Option (TrainState St Ac ρ)
  | 0, ts => some ts
  | n + 1, ts =>
    match trainStepO ord explore next fuel ts with
    | none => none
    | some ts1 => runEpisodesO ord explore next fuel n ts1

def trainO [DecidableEq St] [DecidableEq Ac] [Inhabited Ac]
    (ord : List (Ac × QEntry) → List (Ac × QEntry))
    (episodes fuel : Nat) (explore : ρ → (St × Ac) × ρ)
    (next : (St × Ac) → ρ → (Option St × Int) × ρ) (r : ρ) : Option (List (St × Ac)) :=
  Option.map TrainState.policy (runEpisodesO ord explore next fuel episodes ⟨[], [], r⟩)

theorem runEpisodesO_id [DecidableEq St] [DecidableEq Ac] [Inhabited Ac]
    (explore : ρ → (St × Ac) × ρ) (next : (St × Ac) → ρ → (Option St × Int) × ρ)
    (fuel : Nat) : ∀ n (ts : TrainState St Ac ρ),
    runEpisodesO (fun l => l) explore next fuel n ts = runEpisodes explore next fuel n ts := by
  intro n
  induction n with
  | zero => intro ts; rfl
  | succ n ih =>
    intro ts
    show (match trainStepO (fun l => l) explore next fuel ts with
      | none => none
      | some ts1 => runEpisodesO (fun l => l) explore next fuel n ts1) = _
    have hstep : trainStepO (fun l => l) explore next fuel ts =
        trainStep explore next fuel ts := rfl
    rw [hstep]
    show _ = (match trainStep explore next fuel ts with
      | none => none
      | some ts1 => runEpisodes explore next fuel n ts1)
    cases trainStep explore next fuel ts with
    | none => rfl
    | some ts1 => exact ih ts1

/-- Counterexample to C4 as stated: same seed (`0`), same deterministic
callbacks, same episode count (`2`), but two different iteration
orders of the same inner-map content (the identity and reversal, which
is a permutation of the content) produce different policies.  The MDP
rewards both actions `+1`, so after two episodes the two estimates are
exactly tied and the argmax picks the last maximal entry in iteration
order. -/
theorem c4_counterexample :
    (∀ (l : List (Bool × QEntry)), (List.reverse l).Perm l) ∧
    trainO (fun l => l) 2 1 (fun n : Nat => (((), decide (n % 2 = 0)), n + 1))
        (fun _ n => ((none, 1), n)) 0 ≠
      trainO List.reverse 2 1 (fun n : Nat => (((), decide (n % 2 = 0)), n + 1))
        (fun _ n => ((none, 1), n)) 0 := by
  constructor
  · intro l
    exact List.reverse_perm l
  · decide

/-- Claim C4, amended. Two-run determinism holds once the hash map's
(unspecified) iteration order is also fixed: for every fixed seed,
deterministic callbacks and episode count, two training runs with the
same iteration order produce an identical policy mapping; moreover the
base embedding `train` is exactly the insertion-order instance of the
order-parameterised trainer.  With distinct iteration orders the
result can differ when estimates are exactly tied
(`c4_counterexample`). -/
theorem c4_determinism [DecidableEq St] [DecidableEq Ac] [Inhabited Ac]
    (ord1 ord2 : List (Ac × QEntry) → List (Ac × QEntry)) (h : ord1 = ord2)
    (episodes fuel : Nat) (explore : ρ → (St × Ac) × ρ)
    (next : (St × Ac) → ρ → (Option St × Int) × ρ) (r : ρ) :
    trainO ord1 episodes fuel explore next r = trainO ord2 episodes fuel explore next r ∧
    trainO (fun l => l) episodes fuel explore next r = train episodes fuel explore next r := by
  constructor
  · rw [h]
  · show Option.map TrainState.policy _ = Option.map TrainState.policy _
    rw [runEpisodesO_id]

/-- Witness for the amended C4 at a concrete instance. -/
theorem c4_witness :
    trainO (fun l => l) 1 1 (fun n : Nat => ((((true : Bool), (true : Bool))), n + 1))
        (fun _ n => ((none, 1), n)) 0 =
      trainO (fun l => l) 1 1 (fun n : Nat => ((((true : Bool), (true : Bool))), n + 1))
        (fun _ n => ((none, 1), n)) 0 :=
  (c4_determinism (fun l => l) (fun l => l) rfl 1 1
    (fun n : Nat => ((((true : Bool), (true : Bool))), n + 1))
    (fun _ n => ((none, 1), n)) 0).1

end MCES
